import Mathlib

/-!
Verification of `trtpy.pid._pid.roc_curve` (file `src/trtpy/pid/_pid.py`).

The Python class is embedded shallowly: histogram bin contents and raw
samples are rationals (standing for Python floats, whose arithmetic here is
exact on the dyadic inputs used), fallible code returns `Except`, and the
mutable `interpolation` attribute of a curve instance is threaded as explicit
state.  Bin indices follow ROOT's 1-indexed convention at the interface and
are stored 0-indexed in lists.
-/

namespace Trtpy

/-- The exception kinds the Python code can raise, by site:
`TypeError` (line 73), `ValueError` for unequal bin counts (line 83),
`ValueError` from unpacking six values into four names (lines 122/129/136),
`ZeroDivisionError` from a float division by zero (lines 48/49/101/102 etc.),
`ValueError` from numpy `max` on an empty array (line 148),
the bare `Exception` (line 144), `AttributeError` (line 191) and
`NameError` (line 202). -/
inductive PyError where
  | typeError
  | valueErrorBins
  | valueErrorUnpack
  | zeroDivisionError
  | valueErrorEmptyMax
  | exceptionBadInput
  | attributeError
  | nameError
deriving DecidableEq

/-- Modelled from the spec: the `axis` enumeration imported from
`trtpy.pid._utils` (that module is not present under `src/`); per the spec a
primary axis is one of x, y, z. -/
inductive Axis where
  | x
  | y
  | z
deriving DecidableEq

/-- A ROOT histogram of the TH1/TH2/TH3 family: the regular-bin contents
(under/overflow bins are never touched by this code) together with the fill
count reported by `GetEntries`.  2-D contents are indexed `counts[x][y]`,
3-D contents `counts[x][y][z]`, all 0-indexed internally. -/
inductive RootHist where
  | th1 (counts : List ℚ) (entries : ℚ)
  | th2 (counts : List (List ℚ)) (entries : ℚ)
  | th3 (counts : List (List (List ℚ))) (entries : ℚ)
deriving DecidableEq

def RootHist.getEntries : RootHist → ℚ
  | .th1 _ e => e
  | .th2 _ e => e
  | .th3 _ e => e

/-- `GetXaxis().GetNbins()`. -/
def RootHist.nbinsX : RootHist → ℕ
  | .th1 c _ => c.length
  | .th2 c _ => c.length
  | .th3 c _ => c.length

/-- `GetYaxis().GetNbins()`; a TH1 has a trivial y axis with one bin. -/
def RootHist.nbinsY : RootHist → ℕ
  | .th1 _ _ => 1
  | .th2 c _ => (c.headD []).length
  | .th3 c _ => (c.headD []).length

/-- `GetZaxis().GetNbins()`; TH1 and TH2 have a trivial z axis with one bin. -/
def RootHist.nbinsZ : RootHist → ℕ
  | .th1 _ _ => 1
  | .th2 _ _ => 1
  | .th3 c _ => ((c.headD []).headD []).length

/-- `isinstance(h, ROOT.TH3)`. -/
def RootHist.isTH3 : RootHist → Bool
  | .th3 _ _ => true
  | _ => false

/-- `isinstance(h, ROOT.TH2)`. -/
def RootHist.isTH2 : RootHist → Bool
  | .th2 _ _ => true
  | _ => false

/-- `isinstance(h, ROOT.TH1)`: in ROOT's class hierarchy TH2 and TH3 both
inherit from TH1, so this is true for the whole family. -/
def RootHist.isTH1 : RootHist → Bool := fun _ => true

/-- Sum of a list over the inclusive 1-indexed index range `[a, b]`
(ROOT's `Integral` convention on one axis); an empty range sums to 0,
as in ROOT's `DoIntegral` loop. -/
def sliceSum (l : List ℚ) (a b : ℕ) : ℚ :=
  if b < a then 0 else ((l.drop (a - 1)).take (b - a + 1)).sum

/-- `h.Integral(binx1, binx2)`: on a TH1 the two-argument overload sums the
contents over the inclusive x-bin range; TH2 and TH3 override this overload
with a MayNotUse stub that prints a warning and returns 0, so calling it on a
2-D or 3-D histogram yields a zero integral. -/
def RootHist.integral2 (h : RootHist) (x1 x2 : ℕ) : ℚ :=
  match h with
  | .th1 c _ => sliceSum c x1 x2
  | _ => 0

/-- `h.Integral(binx1, binx2, biny1, biny2)`: the four-argument
`TH2::Integral` overload, summing contents with the x bin in `[x1, x2]` and
the y bin in `[y1, y2]`, both inclusive. -/
def RootHist.integral4 (h : RootHist) (x1 x2 y1 y2 : ℕ) : ℚ :=
  match h with
  | .th2 c _ => sliceSum (c.map (fun row => sliceSum row y1 y2)) x1 x2
  | _ => 0

/-- `numpy.histogram(samples, bins=edges)` with an explicit monotone edge
array: bin j counts the samples s with `edges[j] <= s < edges[j+1]`, except
that the final bin also counts its right edge. -/
def npHistogram (samples : List ℚ) : List ℚ → List ℚ
  | [] => []
  | [_] => []
  | [e1, e2] => [(samples.countP (fun s => decide (e1 ≤ s) && decide (s ≤ e2)) : ℚ)]
  | e1 :: e2 :: e3 :: rest =>
      (samples.countP (fun s => decide (e1 ≤ s) && decide (s < e2)) : ℚ) ::
        npHistogram samples (e2 :: e3 :: rest)

/-- The data captured by `scipy.interpolate.interp1d(x, y,
fill_value='extrapolate')`: the coordinate arrays given at construction. -/
structure Interp1d where
  xs : List ℚ
  ys : List ℚ
deriving DecidableEq

/-- Stable insertion of a point into a list sorted by x. -/
def insertByX (p : ℚ × ℚ) : List (ℚ × ℚ) → List (ℚ × ℚ)
  | [] => [p]
  | q :: qs => if p.1 ≤ q.1 then p :: q :: qs else q :: insertByX p qs

/-- interp1d sorts its x array first (`assume_sorted` defaults to False). -/
def sortByX (l : List (ℚ × ℚ)) : List (ℚ × ℚ) := l.foldr insertByX []

/-- Value at `t` of the line through points `a` and `b`. -/
def segEval (a b : ℚ × ℚ) (t : ℚ) : ℚ :=
  a.2 + (t - a.1) * (b.2 - a.2) / (b.1 - a.1)

/-- Piecewise-linear evaluation on x-sorted points, extrapolating from the
first/last segment outside the data range (`fill_value='extrapolate'`).
Duplicate x values, for which scipy produces NaN slopes, are outside the
scope of this model. -/
def evalSortedLin : List (ℚ × ℚ) → ℚ → ℚ
  | [], _ => 0
  | [p], _ => p.2
  | [a, b], t => segEval a b t
  | a :: b :: c :: rest, t =>
      if t ≤ b.1 then segEval a b t else evalSortedLin (b :: c :: rest) t

/-- Evaluate an interp1d object at `t`. -/
def interpEval (f : Interp1d) (t : ℚ) : ℚ :=
  evalSortedLin (sortByX (f.xs.zip f.ys)) t

/-- The state of a constructed `roc_curve` instance: the attributes assigned
in `__init__`.  `sigRootHist`/`bkgRootHist` model `_sigRootHist` and
`_bkgRootHist`, which are assigned only on the ROOT-histogram path;
`interpolation` is the lazily populated interpolant cache. -/
structure Curve where
  sigInteg : ℚ
  bkgInteg : ℚ
  sigPoints : List ℚ
  bkgPoints : List ℚ
  bmax : ℚ
  bmin : ℚ
  smax : ℚ
  smin : ℚ
  sigRootHist : Option RootHist
  bkgRootHist : Option RootHist
  interpolation : Option Interp1d
deriving DecidableEq

/-- `numpy.ndarray.max` on a nonempty array (the empty case raises and is
handled before this is applied). -/
def listMax : List ℚ → ℚ
  | [] => 0
  | q :: qs => qs.foldl max q

/-- `numpy.ndarray.min` on a nonempty array. -/
def listMin : List ℚ → ℚ
  | [] => 0
  | q :: qs => qs.foldl min q

/-- The point-construction loop shared by every branch of `__init__`: for
sweep index i in `range(n)` append `numerator(i) / integral` for signal and
background.  A zero integral makes the first executed float division raise
`ZeroDivisionError`; with `n = 0` the loop body never runs and no division
happens. -/
def buildPts (n : ℕ) (fs fb : ℕ → ℚ) (si bi : ℚ) :
    Except PyError (List ℚ × List ℚ) :=
  if n ≠ 0 ∧ (si = 0 ∨ bi = 0) then .error .zeroDivisionError
  else .ok ((List.range n).map (fun i => fs i / si),
            (List.range n).map (fun i => fb i / bi))

/-- Lines 146-152 of `_pid.py`: materialize the point arrays, cache their
min/max (numpy's `max`/`min` raise ValueError on an empty array), and build
the interpolant eagerly when the `interpolate` flag is set. -/
def finishCurve (sp bp : List ℚ) (si bi : ℚ)
    (srh brh : Option RootHist) (interpolate : Bool) : Except PyError Curve :=
  if sp = [] ∨ bp = [] then .error .valueErrorEmptyMax
  else .ok
    { sigInteg := si
      bkgInteg := bi
      sigPoints := sp
      bkgPoints := bp
      bmax := listMax bp
      bmin := listMin bp
      smax := listMax sp
      smin := listMin sp
      sigRootHist := srh
      bkgRootHist := brh
      interpolation := if interpolate then some ⟨sp, bp⟩ else none }

/-- Point loop followed by attribute materialization. -/
def sweepCore (n : ℕ) (fs fb : ℕ → ℚ) (si bi : ℚ)
    (srh brh : Option RootHist) (interpolate : Bool) : Except PyError Curve :=
  match buildPts n fs fb si bi with
  | .error e => .error e
  | .ok (sp, bp) => finishCurve sp bp si bi srh brh interpolate

/-- Lines 42-51: the numpy-array branch.  Both inputs are binned with
`numpy.histogram` over the caller's edge array, the integrals are the total
counts, and point i divides the count of the bins strictly above bin i
(`sigHist[i+1:]`) by the integral. -/
def npBranch (ss bs : List ℚ) (interpolate : Bool) (npbinning : List ℚ) :
    Except PyError Curve :=
  let sigH := npHistogram ss npbinning
  let bkgH := npHistogram bs npbinning
  sweepCore sigH.length
    (fun i => (sigH.drop (i + 1)).sum)
    (fun i => (bkgH.drop (i + 1)).sum)
    sigH.sum bkgH.sum none none interpolate

/-- Lines 96-102: the 1-D sweep, also reached by any TH1-family pair that is
neither two TH3s nor two TH2s.  The bin-count check (lines 81-83) covers only
the x axis when the inferred dimensionality is 1. -/
def rootDim1 (sh bh : RootHist) (interpolate : Bool) : Except PyError Curve :=
  if sh.nbinsX ≠ bh.nbinsX then .error .valueErrorBins
  else
    sweepCore sh.nbinsX
      (fun i => sh.integral2 (sh.nbinsX - i) sh.nbinsX)
      (fun i => bh.integral2 (bh.nbinsX - i) bh.nbinsX)
      (sh.integral2 1 sh.nbinsX) (bh.integral2 1 bh.nbinsX)
      (some sh) (some bh) interpolate

/-- Lines 104-118: the 2-D sweep.  The primary axis is y when the
`primary_axis` argument mentions y, otherwise x (so a z request falls back to
x); the other axis is fixed to the caller's inclusive bin range. -/
def rootDim2 (sh bh : RootHist) (primary_axis : Axis)
    (xbinrange ybinrange : ℕ × ℕ) (interpolate : Bool) : Except PyError Curve :=
  if sh.nbinsX ≠ bh.nbinsX ∨ sh.nbinsY ≠ bh.nbinsY then .error .valueErrorBins
  else if primary_axis = .y then
    sweepCore sh.nbinsY
      (fun i => sh.integral4 xbinrange.1 xbinrange.2 (sh.nbinsY - i) sh.nbinsY)
      (fun i => bh.integral4 xbinrange.1 xbinrange.2 (bh.nbinsY - i) bh.nbinsY)
      (sh.integral4 xbinrange.1 xbinrange.2 1 sh.nbinsY)
      (bh.integral4 xbinrange.1 xbinrange.2 1 bh.nbinsY)
      (some sh) (some bh) interpolate
  else
    sweepCore sh.nbinsX
      (fun i => sh.integral4 (sh.nbinsX - i) sh.nbinsX ybinrange.1 ybinrange.2)
      (fun i => bh.integral4 (bh.nbinsX - i) bh.nbinsX ybinrange.1 ybinrange.2)
      (sh.integral4 1 sh.nbinsX ybinrange.1 ybinrange.2)
      (bh.integral4 1 bh.nbinsX ybinrange.1 ybinrange.2)
      (some sh) (some bh) interpolate

/-- Lines 120-141: the 3-D branch.  After the per-axis bin-count check
(lines 81-83), every sub-branch executes a tuple assignment that unpacks six
values into four names (lines 122, 129, 136), which raises ValueError before
any integral is computed (the names z1 and z2 are moreover never bound). -/
def rootDim3 (sh bh : RootHist) : Except PyError Curve :=
  if sh.nbinsX ≠ bh.nbinsX ∨ sh.nbinsY ≠ bh.nbinsY ∨ sh.nbinsZ ≠ bh.nbinsZ then
    .error .valueErrorBins
  else .error .valueErrorUnpack

/-- Lines 53-141: dimensionality dispatch over a pair of ROOT histograms, in
the source's isinstance order (TH3 first, then TH2, then TH1).  Because every
TH2 and TH3 is also a TH1, a pair that is not two TH3s and not two TH2s
always lands in the 1-D branch; the TypeError at line 73 is reachable only
for TObjects outside the TH1 family, which this model does not represent. -/
def rootBranch (sh bh : RootHist) (primary_axis : Axis)
    (xbinrange ybinrange : ℕ × ℕ) (interpolate : Bool) : Except PyError Curve :=
  if sh.isTH3 && bh.isTH3 then rootDim3 sh bh
  else if sh.isTH2 && bh.isTH2 then
    rootDim2 sh bh primary_axis xbinrange ybinrange interpolate
  else rootDim1 sh bh interpolate

/-- A constructor argument: a numpy array of raw observations or a ROOT
histogram. -/
inductive SrcInput where
  | nparr (samples : List ℚ)
  | root (h : RootHist)
deriving DecidableEq

/-- `roc_curve.__init__` (lines 36-152).  `zbinrange` is consumed only by the
3-D branch, which fails before reading it, so it is not a parameter here;
mixed numpy/ROOT argument pairs raise the bare Exception at line 144. -/
def roc_init (sighist bkghist : SrcInput) (primary_axis : Axis)
    (interpolate : Bool) (xbinrange ybinrange : ℕ × ℕ)
    (npbinning : List ℚ) : Except PyError Curve :=
  match sighist, bkghist with
  | .nparr ss, .nparr bs => npBranch ss bs interpolate npbinning
  | .root sh, .root bh =>
      rootBranch sh bh primary_axis xbinrange ybinrange interpolate
  | _, _ => .error .exceptionBadInput

/-- The pure data computed by one `efficiency` call (lines 166-203):
the two interpolated efficiencies, the two normalization factors, and the
inverse interpolant built locally on every call (line 196). -/
structure EffCore where
  eff : ℚ
  eff2 : ℚ
  normfactorsig : ℚ
  normfactorbkg : ℚ
  inv : Interp1d
deriving DecidableEq

/-- Lines 186-189: populate the interpolation cache if and only if the
attribute is not yet set (`hasattr` check); an existing cache is left
untouched. -/
def effUpdate (c : Curve) : Curve :=
  if c.interpolation.isSome then c
  else { c with interpolation := some ⟨c.sigPoints, c.bkgPoints⟩ }

/-- `roc_curve.efficiency`, lines 186-200, without the final error
arithmetic: returns the computed data together with the updated instance
state.  The interpolation cache is populated first (lines 186-187), so the
returned state carries the cache even when the call then raises
`AttributeError` at line 191 (on a numpy-built curve `_sigRootHist` was never
assigned). -/
def efficiencyCore (c : Curve) (at_sig at_bkg : ℚ) (norm_by_entries : Bool) :
    Except PyError EffCore × Curve :=
  let c' := effUpdate c
  let fw := c'.interpolation.getD ⟨[], []⟩
  let mk : ℚ → ℚ → EffCore := fun nfs nfb =>
    let inv : Interp1d := ⟨c'.bkgPoints, c'.sigPoints⟩
    { eff := interpEval fw at_sig
      eff2 := interpEval inv at_bkg
      normfactorsig := nfs
      normfactorbkg := nfb
      inv := inv }
  if norm_by_entries then
    match c'.sigRootHist with
    | none => (.error .attributeError, c')
    | some sh =>
        match c'.bkgRootHist with
        | none => (.error .attributeError, c')
        | some bh => (.ok (mk sh.getEntries bh.getEntries), c')
  else (.ok (mk c'.sigInteg c'.bkgInteg), c')

/-- Line 198/200: `np.sqrt(eff*(1-eff)/normfactor)`. -/
noncomputable def rocErr (eff nf : ℝ) : ℝ := Real.sqrt (eff * (1 - eff) / nf)

/-- Lines 202-203: the reported combined error `np.sqrt(err*err + err2*err2)`. -/
noncomputable def combinedError (err err2 : ℝ) : ℝ :=
  Real.sqrt (err * err + err2 * err2)

/-- The error value an `efficiency` call reports: `err` pairs `eff` with the
background normalization factor, `err2` pairs `eff2` with the signal one
(lines 198-200). -/
noncomputable def efficiencyErr (e : EffCore) : ℝ :=
  combinedError (rocErr (e.eff : ℝ) (e.normfactorbkg : ℝ))
    (rocErr (e.eff2 : ℝ) (e.normfactorsig : ℝ))

/-- The pair an `efficiency` call returns on the default path. -/
structure EffRet where
  eff : ℚ
  err : ℝ

/-- `roc_curve.efficiency` in full.  With `return_inv` the return statement at
line 202 evaluates the undefined name `env_interp` (the inverse interpolant
was bound as `inv_interp`), which raises `NameError` after all the numeric
work is done. -/
noncomputable def efficiency (c : Curve) (at_sig at_bkg : ℚ)
    (norm_by_entries return_inv : Bool) : Except PyError EffRet × Curve :=
  match efficiencyCore c at_sig at_bkg norm_by_entries with
  | (.error e, c') => (.error e, c')
  | (.ok core, c') =>
      if return_inv then (.error .nameError, c')
      else (.ok ⟨core.eff, efficiencyErr core⟩, c')

/-- All regular-bin contents of a histogram are nonnegative (true of any
count-filled histogram). -/
def histNonneg : RootHist → Prop
  | .th1 c _ => ∀ q ∈ c, 0 ≤ q
  | .th2 c _ => ∀ r ∈ c, ∀ q ∈ r, 0 ≤ q
  | .th3 c _ => ∀ p ∈ c, ∀ r ∈ p, ∀ q ∈ r, 0 ≤ q

/-- Whether a construction attempt produced a curve object. -/
def isOkE : Except PyError Curve → Bool
  | .ok _ => true
  | .error _ => false

instance {ε α : Type} [DecidableEq ε] [DecidableEq α] : DecidableEq (Except ε α) :=
  fun a b =>
    match a, b with
    | .error e, .error e' =>
        if h : e = e' then .isTrue (by rw [h])
        else .isFalse (by intro hc; cases hc; exact h rfl)
    | .error _, .ok _ => .isFalse (by intro hc; cases hc)
    | .ok _, .error _ => .isFalse (by intro hc; cases hc)
    | .ok x, .ok y =>
        if h : x = y then .isTrue (by rw [h])
        else .isFalse (by intro hc; cases hc; exact h rfl)

/-! Basic facts about the embedded operations. -/

theorem le_foldl_max (x : ℚ) (l : List ℚ) :
    x ≤ l.foldl max x ∧ ∀ y ∈ l, y ≤ l.foldl max x := by
  induction l generalizing x with
  | nil => simp
  | cons a as ih =>
    obtain ⟨h1, h2⟩ := ih (max x a)
    rw [List.foldl_cons]
    refine ⟨le_trans (le_max_left x a) h1, fun y hy => ?_⟩
    rcases List.mem_cons.mp hy with rfl | hy'
    · exact le_trans (le_max_right x y) h1
    · exact h2 y hy'

theorem foldl_max_mem (x : ℚ) (l : List ℚ) :
    l.foldl max x = x ∨ l.foldl max x ∈ l := by
  induction l generalizing x with
  | nil => exact .inl rfl
  | cons a as ih =>
    rw [List.foldl_cons]
    rcases ih (max x a) with h | h
    · rcases max_choice x a with hc | hc
      · exact .inl (h.trans hc)
      · exact .inr (by rw [h, hc]; exact List.mem_cons_self a as)
    · exact .inr (List.mem_cons_of_mem a h)

theorem listMax_mem {l : List ℚ} (hl : l ≠ []) : listMax l ∈ l := by
  match l with
  | [] => exact absurd rfl hl
  | q :: qs =>
    rw [listMax]
    rcases foldl_max_mem q qs with h | h
    · rw [h]; exact List.mem_cons_self q qs
    · exact List.mem_cons_of_mem q h

theorem le_listMax {l : List ℚ} (y : ℚ) (hy : y ∈ l) : y ≤ listMax l := by
  match l with
  | [] => exact absurd hy (by simp)
  | q :: qs =>
    rw [listMax]
    rcases List.mem_cons.mp hy with rfl | hy'
    · exact (le_foldl_max y qs).1
    · exact (le_foldl_max q qs).2 y hy'

theorem foldl_min_le (x : ℚ) (l : List ℚ) :
    l.foldl min x ≤ x ∧ ∀ y ∈ l, l.foldl min x ≤ y := by
  induction l generalizing x with
  | nil => simp
  | cons a as ih =>
    obtain ⟨h1, h2⟩ := ih (min x a)
    rw [List.foldl_cons]
    refine ⟨le_trans h1 (min_le_left x a), fun y hy => ?_⟩
    rcases List.mem_cons.mp hy with rfl | hy'
    · exact le_trans h1 (min_le_right x y)
    · exact h2 y hy'

theorem foldl_min_mem (x : ℚ) (l : List ℚ) :
    l.foldl min x = x ∨ l.foldl min x ∈ l := by
  induction l generalizing x with
  | nil => exact .inl rfl
  | cons a as ih =>
    rw [List.foldl_cons]
    rcases ih (min x a) with h | h
    · rcases min_choice x a with hc | hc
      · exact .inl (h.trans hc)
      · exact .inr (by rw [h, hc]; exact List.mem_cons_self a as)
    · exact .inr (List.mem_cons_of_mem a h)

theorem listMin_mem {l : List ℚ} (hl : l ≠ []) : listMin l ∈ l := by
  match l with
  | [] => exact absurd rfl hl
  | q :: qs =>
    rw [listMin]
    rcases foldl_min_mem q qs with h | h
    · rw [h]; exact List.mem_cons_self q qs
    · exact List.mem_cons_of_mem q h

theorem listMin_le {l : List ℚ} (y : ℚ) (hy : y ∈ l) : listMin l ≤ y := by
  match l with
  | [] => exact absurd hy (by simp)
  | q :: qs =>
    rw [listMin]
    rcases List.mem_cons.mp hy with rfl | hy'
    · exact (foldl_min_le y qs).1
    · exact (foldl_min_le q qs).2 y hy'

theorem range_map_getLast? {f : ℕ → ℚ} {n : ℕ} (hn : n ≠ 0) :
    ((List.range n).map f).getLast? = some (f (n - 1)) := by
  obtain ⟨m, rfl⟩ := Nat.exists_eq_succ_of_ne_zero hn
  rw [List.range_succ, List.map_append]
  simp

theorem sliceSum_one (l : List ℚ) (b : ℕ) : sliceSum l 1 b = (l.take b).sum := by
  rw [sliceSum]
  rcases Nat.eq_zero_or_pos b with hb | hb
  · subst hb; simp
  · rw [if_neg (by omega)]
    have h1 : b - 1 + 1 = b := by omega
    simp [h1]

theorem sliceSum_full (l : List ℚ) : sliceSum l 1 l.length = l.sum := by
  rw [sliceSum_one, List.take_length]

theorem sum_drop_le_sum (l : List ℚ) (k : ℕ) (h : ∀ x ∈ l, 0 ≤ x) :
    (l.drop k).sum ≤ l.sum := by
  conv_rhs => rw [← List.take_append_drop k l]
  rw [List.sum_append]
  have h0 : 0 ≤ (l.take k).sum :=
    List.sum_nonneg fun x hx => h x (List.mem_of_mem_take hx)
  linarith

theorem sum_drop_nonneg (l : List ℚ) (k : ℕ) (h : ∀ x ∈ l, 0 ≤ x) :
    0 ≤ (l.drop k).sum :=
  List.sum_nonneg fun x hx => h x (List.mem_of_mem_drop hx)

theorem sliceSum_nonneg {l : List ℚ} (h : ∀ x ∈ l, 0 ≤ x) (a b : ℕ) :
    0 ≤ sliceSum l a b := by
  rw [sliceSum]
  split
  · exact le_refl 0
  · exact List.sum_nonneg fun x hx =>
      h x (List.mem_of_mem_drop (List.mem_of_mem_take hx))

theorem sliceSum_le_left_one {l : List ℚ} (h : ∀ x ∈ l, 0 ≤ x) {a : ℕ}
    (ha : 1 ≤ a) (b : ℕ) : sliceSum l a b ≤ sliceSum l 1 b := by
  rw [sliceSum_one, sliceSum]
  split
  · exact List.sum_nonneg fun x hx => h x (List.mem_of_mem_take hx)
  next hba =>
    have hdt : (l.take b).drop (a - 1) = (l.drop (a - 1)).take (b - (a - 1)) :=
      List.drop_take ..
    have harith : b - (a - 1) = b - a + 1 := by omega
    calc ((l.drop (a - 1)).take (b - a + 1)).sum
        = ((l.take b).drop (a - 1)).sum := by rw [hdt, harith]
      _ ≤ (l.take b).sum :=
          sum_drop_le_sum _ _ fun x hx => h x (List.mem_of_mem_take hx)

theorem sliceSum_map_mono {rows : List (List ℚ)} {f g : List ℚ → ℚ}
    (h : ∀ r ∈ rows, f r ≤ g r) (a b : ℕ) :
    sliceSum (rows.map f) a b ≤ sliceSum (rows.map g) a b := by
  rw [sliceSum, sliceSum]
  split
  · exact le_refl 0
  · rw [← List.map_drop, ← List.map_take, ← List.map_drop, ← List.map_take]
    exact List.sum_le_sum fun r hr =>
      h r (List.mem_of_mem_drop (List.mem_of_mem_take hr))

theorem npHistogram_nonneg (s : List ℚ) :
    ∀ (es : List ℚ), ∀ q ∈ npHistogram s es, 0 ≤ q
  | [] => by simp [npHistogram]
  | [_] => by simp [npHistogram]
  | [e1, e2] => by
      intro q hq
      rw [npHistogram] at hq
      rcases List.mem_singleton.mp hq with rfl
      positivity
  | e1 :: e2 :: e3 :: rest => by
      intro q hq
      rw [npHistogram] at hq
      rcases List.mem_cons.mp hq with rfl | h
      · positivity
      · exact npHistogram_nonneg s (e2 :: e3 :: rest) q h

theorem sweepCore_eq (n : ℕ) (fs fb : ℕ → ℚ) (si bi : ℚ)
    (srh brh : Option RootHist) (itp : Bool) :
    sweepCore n fs fb si bi srh brh itp =
      if n ≠ 0 ∧ (si = 0 ∨ bi = 0) then .error .zeroDivisionError
      else finishCurve ((List.range n).map fun i => fs i / si)
        ((List.range n).map fun i => fb i / bi) si bi srh brh itp := by
  rw [sweepCore, buildPts]
  by_cases hc : n ≠ 0 ∧ (si = 0 ∨ bi = 0)
  · rw [if_pos hc, if_pos hc]
  · rw [if_neg hc, if_neg hc]

theorem sweepCore_ok {n : ℕ} {fs fb : ℕ → ℚ} {si bi : ℚ}
    {srh brh : Option RootHist} {itp : Bool} {c : Curve}
    (h : sweepCore n fs fb si bi srh brh itp = .ok c) :
    n ≠ 0 ∧ si ≠ 0 ∧ bi ≠ 0 ∧
    c.sigPoints = (List.range n).map (fun i => fs i / si) ∧
    c.bkgPoints = (List.range n).map (fun i => fb i / bi) ∧
    c.sigInteg = si ∧ c.bkgInteg = bi ∧
    c.sigRootHist = srh ∧ c.bkgRootHist = brh ∧
    c.interpolation = (if itp then some ⟨c.sigPoints, c.bkgPoints⟩ else none) ∧
    c.bmax = listMax c.bkgPoints ∧ c.bmin = listMin c.bkgPoints ∧
    c.smax = listMax c.sigPoints ∧ c.smin = listMin c.sigPoints := by
  rw [sweepCore_eq] at h
  split at h
  · exact Except.noConfusion h
  next hcond =>
    rw [finishCurve] at h
    split at h
    · exact Except.noConfusion h
    next hne =>
      have hn : n ≠ 0 := by
        intro hn0
        subst hn0
        simp at hne
      push_neg at hcond
      obtain ⟨hsi, hbi⟩ := hcond hn
      injection h with h'
      subst h'
      exact ⟨hn, hsi, hbi, rfl, rfl, rfl, rfl, rfl, rfl, rfl, rfl, rfl, rfl, rfl⟩

theorem sweepCore_success {n : ℕ} {fs fb : ℕ → ℚ} {si bi : ℚ}
    (srh brh : Option RootHist) (itp : Bool)
    (hn : n ≠ 0) (hsi : si ≠ 0) (hbi : bi ≠ 0) :
    isOkE (sweepCore n fs fb si bi srh brh itp) = true := by
  rw [sweepCore_eq, if_neg (by tauto), finishCurve,
    if_neg (by simp [List.range_eq_nil, hn]), isOkE]

theorem effUpdate_sigPoints (c : Curve) : (effUpdate c).sigPoints = c.sigPoints := by
  rw [effUpdate]; split <;> rfl

theorem effUpdate_bkgPoints (c : Curve) : (effUpdate c).bkgPoints = c.bkgPoints := by
  rw [effUpdate]; split <;> rfl

theorem effUpdate_sigInteg (c : Curve) : (effUpdate c).sigInteg = c.sigInteg := by
  rw [effUpdate]; split <;> rfl

theorem effUpdate_bkgInteg (c : Curve) : (effUpdate c).bkgInteg = c.bkgInteg := by
  rw [effUpdate]; split <;> rfl

theorem effUpdate_sigRootHist (c : Curve) :
    (effUpdate c).sigRootHist = c.sigRootHist := by
  rw [effUpdate]; split <;> rfl

theorem effUpdate_bkgRootHist (c : Curve) :
    (effUpdate c).bkgRootHist = c.bkgRootHist := by
  rw [effUpdate]; split <;> rfl

theorem effUpdate_isSome (c : Curve) : (effUpdate c).interpolation.isSome := by
  rw [effUpdate]
  split
  next h => exact h
  · rfl

theorem effUpdate_idem (c : Curve) : effUpdate (effUpdate c) = effUpdate c := by
  conv_lhs => rw [effUpdate]
  rw [if_pos (effUpdate_isSome c)]

theorem efficiencyCore_state (c : Curve) (as ab : ℚ) (nbe : Bool) :
    (efficiencyCore c as ab nbe).2 = effUpdate c := by
  cases nbe with
  | false => rfl
  | true =>
    rcases h1 : (effUpdate c).sigRootHist with _ | sh
    · simp [efficiencyCore, h1]
    · rcases h2 : (effUpdate c).bkgRootHist with _ | bh
      · simp [efficiencyCore, h1, h2]
      · simp [efficiencyCore, h1, h2]

theorem efficiencyCore_false_ok (c : Curve) (as ab : ℚ) :
    efficiencyCore c as ab false =
      (.ok { eff := interpEval ((effUpdate c).interpolation.getD ⟨[], []⟩) as
             eff2 := interpEval ⟨c.bkgPoints, c.sigPoints⟩ ab
             normfactorsig := c.sigInteg
             normfactorbkg := c.bkgInteg
             inv := ⟨c.bkgPoints, c.sigPoints⟩ }, effUpdate c) := by
  simp [efficiencyCore, effUpdate_sigInteg, effUpdate_bkgInteg,
    effUpdate_sigPoints, effUpdate_bkgPoints]

theorem efficiencyCore_true_ok {c : Curve} {sh bh : RootHist}
    (hs : c.sigRootHist = some sh) (hb : c.bkgRootHist = some bh) (as ab : ℚ) :
    efficiencyCore c as ab true =
      (.ok { eff := interpEval ((effUpdate c).interpolation.getD ⟨[], []⟩) as
             eff2 := interpEval ⟨c.bkgPoints, c.sigPoints⟩ ab
             normfactorsig := sh.getEntries
             normfactorbkg := bh.getEntries
             inv := ⟨c.bkgPoints, c.sigPoints⟩ }, effUpdate c) := by
  simp [efficiencyCore, effUpdate_sigRootHist, effUpdate_bkgRootHist, hs, hb,
    effUpdate_sigPoints, effUpdate_bkgPoints]

theorem efficiencyCore_no_root {c : Curve} (hs : c.sigRootHist = none)
    (as ab : ℚ) : (efficiencyCore c as ab true).1 = .error .attributeError := by
  simp [efficiencyCore, effUpdate_sigRootHist, hs]

theorem roc_init_ok_exists {s b : SrcInput} {pa : Axis} {itp : Bool}
    {xr yr : ℕ × ℕ} {bins : List ℚ} {c : Curve}
    (h : roc_init s b pa itp xr yr bins = .ok c) :
    ∃ n fs fb si bi srh brh, sweepCore n fs fb si bi srh brh itp = .ok c := by
  cases s with
  | nparr ss =>
    cases b with
    | nparr bs =>
      simp only [roc_init, npBranch] at h
      exact ⟨_, _, _, _, _, _, _, h⟩
    | root bh => exact Except.noConfusion h
  | root sh =>
    cases b with
    | nparr bs => exact Except.noConfusion h
    | root bh =>
      rw [roc_init, rootBranch] at h
      split at h
      · rw [rootDim3] at h
        split at h <;> exact Except.noConfusion h
      split at h
      · rw [rootDim2] at h
        split at h
        · exact Except.noConfusion h
        split at h
        · exact ⟨_, _, _, _, _, _, _, h⟩
        · exact ⟨_, _, _, _, _, _, _, h⟩
      · rw [rootDim1] at h
        split at h
        · exact Except.noConfusion h
        · exact ⟨_, _, _, _, _, _, _, h⟩

/-! Concrete curves used as witnesses, each the value the constructor
computes on a small input. -/

/-- The curve built from the TH1 pair with contents `[1, 1]`. -/
def curveRoot2 : Curve :=
  { sigInteg := 2, bkgInteg := 2, sigPoints := [1/2, 1], bkgPoints := [1/2, 1],
    bmax := 1, bmin := 1/2, smax := 1, smin := 1/2,
    sigRootHist := some (.th1 [1, 1] 2), bkgRootHist := some (.th1 [1, 1] 2),
    interpolation := none }

/-- `curveRoot2` after its interpolation cache is populated. -/
def curveRoot2i : Curve :=
  { curveRoot2 with interpolation := some ⟨[1/2, 1], [1/2, 1]⟩ }

/-- The curve built from the sample arrays `[1/4, 3/4]` with edges
`[0, 1/2, 1]`. -/
def curveNp2 : Curve :=
  { sigInteg := 2, bkgInteg := 2, sigPoints := [1/2, 0], bkgPoints := [1/2, 0],
    bmax := 1/2, bmin := 0, smax := 1/2, smin := 0,
    sigRootHist := none, bkgRootHist := none, interpolation := none }

/-- The curve built from the TH1 pair with the negative content `[-2]`. -/
def curveNeg : Curve :=
  { sigInteg := -2, bkgInteg := -2, sigPoints := [1], bkgPoints := [1],
    bmax := 1, bmin := 1, smax := 1, smin := 1,
    sigRootHist := some (.th1 [-2] 7), bkgRootHist := some (.th1 [-2] 7),
    interpolation := none }

/-! The claims. -/

/-- C1: the claim (and the class docstring) promise that construction from a
pair of equal-binned TH3 histograms succeeds with one point per primary-axis
bin; instead every 3-D sub-branch starts with a tuple assignment that unpacks
six values into four names (line 122 for primary axis x), so construction
raises ValueError on every 3-D input, here the minimal 1x1x1 pair. -/
theorem c1_th3_always_raises :
    roc_init (.root (.th3 [[[1]]] 1)) (.root (.th3 [[[1]]] 1)) .x false
      (1, 1) (1, 1) [] = .error .valueErrorUnpack := by decide

/-- C5: a mismatched-dimensionality pair never reaches the intended
configuration error: because TH2 and TH3 inherit from TH1, the pair passes
the `isinstance(..., ROOT.TH1)` test and is treated as 1-D (the TypeError at
line 73 is unreachable), and the two-argument `Integral` on the
higher-dimensional histogram is ROOT's disabled MayNotUse stub returning 0,
so the zero integral makes the first point division raise ZeroDivisionError
instead — construction aborts, but with a numeric error, not the claimed
configuration error. -/
theorem c5_mismatched_dims_zero_division :
    (RootHist.th1 [2, 3] 5).isTH2 = false ∧
    (RootHist.th2 [[1], [1]] 2).isTH2 = true ∧
    (RootHist.th2 [[1], [1]] 2).integral2 1 2 = 0 ∧
    roc_init (.root (.th1 [2, 3] 5)) (.root (.th2 [[1], [1]] 2)) .x false
      (1, 1) (1, 1) [] = .error .zeroDivisionError ∧
    roc_init (.root (.th2 [[1], [1]] 2)) (.root (.th3 [[[1]], [[1]]] 2)) .x
      false (1, 1) (1, 1) [] = .error .zeroDivisionError := by
  with_unfolding_all decide

/-- C7: with the alternate-return flag the call does not return the
triple with the inverse-interpolant handle; the return statement at line 202
names the undefined identifier `env_interp` and the call raises NameError. -/
theorem c7_return_inv_raises :
    (efficiency curveRoot2 (9/10) (1/10) false true).1 = .error .nameError := by
  rfl

/-- C2 counterexample: a sample-variant construction succeeds and the last
element of both point sequences is exactly 0, not 1: the final sweep step
sums the empty slice `hist[len:]`. -/
theorem c2_sample_last_is_zero :
    roc_init (.nparr [1/4, 3/4]) (.nparr [1/4, 3/4]) .x false (1, 1) (1, 1)
      [0, 1/2, 1] = .ok curveNp2 ∧
    curveNp2.sigPoints.getLast? = some 0 ∧
    curveNp2.bkgPoints.getLast? = some 0 ∧ (0 : ℚ) ≠ 1 := by
  with_unfolding_all decide

/-- C3 counterexample: the same samples, once fed raw and once pre-binned
into a TH1 with the identical edges, give different point sequences: the
sample variant yields `[1/2, 0]`, the histogram variant `[1/2, 1]`. -/
theorem c3_variants_differ :
    roc_init (.nparr [1/4, 3/4]) (.nparr [1/4, 3/4]) .x false (1, 1) (1, 1)
      [0, 1/2, 1] = .ok curveNp2 ∧
    roc_init (.root (.th1 (npHistogram [1/4, 3/4] [0, 1/2, 1]) 2))
      (.root (.th1 (npHistogram [1/4, 3/4] [0, 1/2, 1]) 2)) .x false (1, 1)
      (1, 1) [0, 1/2, 1] = .ok curveRoot2 ∧
    curveNp2.sigPoints ≠ curveRoot2.sigPoints := by with_unfolding_all decide

/-- C4 counterexample: a pair with negative total integrals is not rejected;
construction succeeds and produces a curve object. -/
theorem c4_negative_integral_accepted :
    roc_init (.root (.th1 [-2] 7)) (.root (.th1 [-2] 7)) .x false (1, 1)
      (1, 1) [] = .ok curveNeg ∧
    curveNeg.sigInteg < 0 ∧ curveNeg.bkgInteg < 0 := by
  with_unfolding_all decide

theorem sweep_last_one {n : ℕ} {I : ℕ → ℕ → ℚ} (hn : n ≠ 0) (hI : I 1 n ≠ 0) :
    ((List.range n).map (fun i => I (n - i) n / I 1 n)).getLast? = some 1 := by
  rw [range_map_getLast? hn]
  have h1 : n - (n - 1) = 1 := by omega
  rw [h1, div_self hI]

theorem npHistogram_length (s : List ℚ) :
    ∀ (es : List ℚ), (npHistogram s es).length = es.length - 1
  | [] => by simp [npHistogram]
  | [_] => by simp [npHistogram]
  | [_, _] => by simp [npHistogram]
  | e1 :: e2 :: e3 :: rest => by
      rw [npHistogram, List.length_cons, npHistogram_length s (e2 :: e3 :: rest)]
      simp only [List.length_cons]
      omega

/-- C2 (amended): for histogram-variant curves the last element of both point
sequences is exactly 1 (the final sweep step divides the full-range integral
by itself), but for sample-variant curves the last element of both sequences
is exactly 0: the final loop iteration sums the empty slice `hist[len:]`. -/
theorem c2_last_points :
    (∀ (sh bh : RootHist) (pa : Axis) (itp : Bool) (xr yr : ℕ × ℕ)
        (bins : List ℚ) (c : Curve),
        roc_init (.root sh) (.root bh) pa itp xr yr bins = .ok c →
        c.sigPoints.getLast? = some 1 ∧ c.bkgPoints.getLast? = some 1) ∧
    (∀ (ss bs : List ℚ) (pa : Axis) (itp : Bool) (xr yr : ℕ × ℕ)
        (bins : List ℚ) (c : Curve),
        roc_init (.nparr ss) (.nparr bs) pa itp xr yr bins = .ok c →
        c.sigPoints.getLast? = some 0 ∧ c.bkgPoints.getLast? = some 0) := by
  constructor
  · intro sh bh pa itp xr yr bins c h
    rw [roc_init, rootBranch] at h
    split at h
    · rw [rootDim3] at h
      split at h <;> exact Except.noConfusion h
    · split at h
      · rw [rootDim2] at h
        split at h
        · exact Except.noConfusion h
        next hbq =>
          push_neg at hbq
          split at h
          · obtain ⟨hn, hsi, hbi, hsp, hbp, -⟩ := sweepCore_ok h
            constructor
            · rw [hsp]
              exact sweep_last_one hn hsi
            · rw [hbq.2] at hn hbp
              rw [hbp]
              exact sweep_last_one hn hbi
          · obtain ⟨hn, hsi, hbi, hsp, hbp, -⟩ := sweepCore_ok h
            constructor
            · rw [hsp]
              exact sweep_last_one (I := fun a b => sh.integral4 a b yr.1 yr.2) hn hsi
            · rw [hbq.1] at hn hbp
              rw [hbp]
              exact sweep_last_one (I := fun a b => bh.integral4 a b yr.1 yr.2) hn hbi
      · rw [rootDim1] at h
        split at h
        · exact Except.noConfusion h
        next hbq =>
          have hx : sh.nbinsX = bh.nbinsX := not_ne_iff.mp hbq
          obtain ⟨hn, hsi, hbi, hsp, hbp, -⟩ := sweepCore_ok h
          constructor
          · rw [hsp]
            exact sweep_last_one hn hsi
          · rw [hx] at hn hbp
            rw [hbp]
            exact sweep_last_one hn hbi
  · intro ss bs pa itp xr yr bins c h
    simp only [roc_init, npBranch] at h
    obtain ⟨hn, hsi, hbi, hsp, hbp, -⟩ := sweepCore_ok h
    have hlen : (npHistogram bs bins).length = (npHistogram ss bins).length := by
      rw [npHistogram_length, npHistogram_length]
    have hd : (npHistogram ss bins).length - 1 + 1 = (npHistogram ss bins).length := by
      omega
    constructor
    · rw [hsp, range_map_getLast? hn, hd, List.drop_length]
      simp
    · rw [hbp, range_map_getLast? hn, hd, ← hlen, List.drop_length]
      simp

/-- C2 witness: both parts of `c2_last_points` instantiated at the TH1 pair
with contents `[1, 1]` and at the samples `[1/4, 3/4]` with edges
`[0, 1/2, 1]`. -/
theorem c2_last_points_witness :
    (roc_init (.root (.th1 [1, 1] 2)) (.root (.th1 [1, 1] 2)) .x false (1, 1)
        (1, 1) [] = .ok curveRoot2 ∧
      curveRoot2.sigPoints.getLast? = some 1 ∧
      curveRoot2.bkgPoints.getLast? = some 1) ∧
    (roc_init (.nparr [1/4, 3/4]) (.nparr [1/4, 3/4]) .x false (1, 1) (1, 1)
        [0, 1/2, 1] = .ok curveNp2 ∧
      curveNp2.sigPoints.getLast? = some 0 ∧
      curveNp2.bkgPoints.getLast? = some 0) := by
  have h1 : roc_init (.root (.th1 [1, 1] 2)) (.root (.th1 [1, 1] 2)) .x false
      (1, 1) (1, 1) [] = .ok curveRoot2 := by with_unfolding_all decide
  have h2 : roc_init (.nparr [1/4, 3/4]) (.nparr [1/4, 3/4]) .x false (1, 1)
      (1, 1) [0, 1/2, 1] = .ok curveNp2 := by with_unfolding_all decide
  exact ⟨⟨h1, c2_last_points.1 _ _ _ _ _ _ _ _ h1⟩,
    ⟨h2, c2_last_points.2 _ _ _ _ _ _ _ _ h2⟩⟩

theorem rootBranch_th1_th1 (cs cb : List ℚ) (es eb : ℚ) (pa : Axis)
    (xr yr : ℕ × ℕ) (itp : Bool) :
    rootBranch (.th1 cs es) (.th1 cb eb) pa xr yr itp
      = rootDim1 (.th1 cs es) (.th1 cb eb) itp := rfl

/-- C4 (amended): construction fails on degenerate data only through the
float division by zero: a zero total integral on either side (with at least
one sweep bin) raises ZeroDivisionError, while a nonzero — in particular
negative — integral is never checked and construction succeeds. -/
theorem c4_zero_division :
    (∀ (ss bs : List ℚ) (pa : Axis) (itp : Bool) (xr yr : ℕ × ℕ)
        (bins : List ℚ), npHistogram ss bins ≠ [] →
        ((npHistogram ss bins).sum = 0 ∨ (npHistogram bs bins).sum = 0) →
        roc_init (.nparr ss) (.nparr bs) pa itp xr yr bins
          = .error .zeroDivisionError) ∧
    (∀ (cs cb : List ℚ) (es eb : ℚ) (pa : Axis) (itp : Bool) (xr yr : ℕ × ℕ)
        (bins : List ℚ), cs ≠ [] → cs.length = cb.length →
        (cs.sum = 0 ∨ cb.sum = 0) →
        roc_init (.root (.th1 cs es)) (.root (.th1 cb eb)) pa itp xr yr bins
          = .error .zeroDivisionError) ∧
    (∀ (cs cb : List ℚ) (es eb : ℚ) (pa : Axis) (itp : Bool) (xr yr : ℕ × ℕ)
        (bins : List ℚ), cs ≠ [] → cs.length = cb.length →
        cs.sum ≠ 0 → cb.sum ≠ 0 →
        isOkE (roc_init (.root (.th1 cs es)) (.root (.th1 cb eb)) pa itp xr yr
          bins) = true) := by
  refine ⟨?_, ?_, ?_⟩
  · intro ss bs pa itp xr yr bins hne hz
    have hlen : (npHistogram ss bins).length ≠ 0 :=
      fun h0 => hne (List.length_eq_zero.mp h0)
    simp only [roc_init, npBranch, sweepCore_eq]
    rw [if_pos ⟨hlen, hz⟩]
  · intro cs cb es eb pa itp xr yr bins hne hLen hz
    have hlen : cs.length ≠ 0 := fun h0 => hne (List.length_eq_zero.mp h0)
    have hnb : (RootHist.th1 cs es).nbinsX = (RootHist.th1 cb eb).nbinsX := hLen
    have h1 : (RootHist.th1 cs es).integral2 1 (RootHist.th1 cs es).nbinsX
        = cs.sum := sliceSum_full cs
    have h2 : (RootHist.th1 cb eb).integral2 1 (RootHist.th1 cb eb).nbinsX
        = cb.sum := sliceSum_full cb
    rw [roc_init, rootBranch_th1_th1, rootDim1, if_neg (not_ne_iff.mpr hnb),
      sweepCore_eq, if_pos ⟨hlen, by rw [h1, h2]; exact hz⟩]
  · intro cs cb es eb pa itp xr yr bins hne hLen hsz hbz
    have hlen : cs.length ≠ 0 := fun h0 => hne (List.length_eq_zero.mp h0)
    have hnb : (RootHist.th1 cs es).nbinsX = (RootHist.th1 cb eb).nbinsX := hLen
    have h1 : (RootHist.th1 cs es).integral2 1 (RootHist.th1 cs es).nbinsX
        = cs.sum := sliceSum_full cs
    have h2 : (RootHist.th1 cb eb).integral2 1 (RootHist.th1 cb eb).nbinsX
        = cb.sum := sliceSum_full cb
    rw [roc_init, rootBranch_th1_th1, rootDim1, if_neg (not_ne_iff.mpr hnb)]
    exact sweepCore_success _ _ _ hlen (by rw [h1]; exact hsz)
      (by rw [h2]; exact hbz)

/-- C4 witness: `c4_zero_division` applied to empty sample arrays (all bin
counts zero), to the zero-content TH1 pair `[0]`, and to the
negative-content TH1 pair `[-2]`. -/
theorem c4_zero_division_witness :
    (npHistogram ([] : List ℚ) [0, 1/2, 1] ≠ [] ∧
      ((npHistogram ([] : List ℚ) [0, 1/2, 1]).sum = 0 ∨
        (npHistogram ([] : List ℚ) [0, 1/2, 1]).sum = 0) ∧
      roc_init (.nparr []) (.nparr []) .x false (1, 1) (1, 1) [0, 1/2, 1]
        = .error .zeroDivisionError) ∧
    (([0] : List ℚ) ≠ [] ∧ ([0] : List ℚ).sum = 0 ∧
      roc_init (.root (.th1 [0] 1)) (.root (.th1 [0] 1)) .x false (1, 1)
        (1, 1) [] = .error .zeroDivisionError) ∧
    (([-2] : List ℚ).sum ≠ 0 ∧
      isOkE (roc_init (.root (.th1 [-2] 7)) (.root (.th1 [-2] 7)) .x false
        (1, 1) (1, 1) []) = true) := by
  refine ⟨⟨?_, ?_, ?_⟩, ⟨?_, ?_, ?_⟩, ⟨?_, ?_⟩⟩
  · with_unfolding_all decide
  · with_unfolding_all decide
  · exact c4_zero_division.1 [] [] .x false (1, 1) (1, 1) [0, 1/2, 1]
      (by with_unfolding_all decide) (by with_unfolding_all decide)
  · with_unfolding_all decide
  · with_unfolding_all decide
  · exact c4_zero_division.2.1 [0] [0] 1 1 .x false (1, 1) (1, 1) []
      (by with_unfolding_all decide) rfl (by left; with_unfolding_all decide)
  · with_unfolding_all decide
  · exact c4_zero_division.2.2 [-2] [-2] 7 7 .x false (1, 1) (1, 1) []
      (by with_unfolding_all decide) rfl (by with_unfolding_all decide)
      (by with_unfolding_all decide)

/-- C10: a curve built from numpy sample arrays never assigns the
`_sigRootHist`/`_bkgRootHist` attributes, so every efficiency query with
`norm_by_entries` set raises AttributeError; entry-count normalization
is available only for histogram-built curves. -/
theorem c10_entries_on_sample_curve :
    ∀ (ss bs : List ℚ) (pa : Axis) (itp : Bool) (xr yr : ℕ × ℕ)
      (bins : List ℚ) (c : Curve) (as ab : ℚ) (ri : Bool),
      roc_init (.nparr ss) (.nparr bs) pa itp xr yr bins = .ok c →
      (efficiency c as ab true ri).1 = .error .attributeError := by
  intro ss bs pa itp xr yr bins c as ab ri h
  simp only [roc_init, npBranch] at h
  have hnone : c.sigRootHist = none := (sweepCore_ok h).2.2.2.2.2.2.2.1
  have hcore := efficiencyCore_no_root hnone as ab
  rcases hc : efficiencyCore c as ab true with ⟨res, cs⟩
  rw [hc] at hcore
  simp only at hcore
  subst hcore
  rw [efficiency, hc]

/-- C10 witness: `c10_entries_on_sample_curve` at the samples `[1/4, 3/4]`
with edges `[0, 1/2, 1]`. -/
theorem c10_entries_on_sample_curve_witness :
    roc_init (.nparr [1/4, 3/4]) (.nparr [1/4, 3/4]) .x false (1, 1) (1, 1)
      [0, 1/2, 1] = .ok curveNp2 ∧
    (efficiency curveNp2 (9/10) (1/10) true false).1
      = .error .attributeError := by
  have h : roc_init (.nparr [1/4, 3/4]) (.nparr [1/4, 3/4]) .x false (1, 1)
      (1, 1) [0, 1/2, 1] = .ok curveNp2 := by with_unfolding_all decide
  exact ⟨h, c10_entries_on_sample_curve _ _ _ _ _ _ _ _ _ _ _ h⟩

theorem efficiencyCore_no_root_bkg {c : Curve} {sh : RootHist}
    (hs : c.sigRootHist = some sh) (hb : c.bkgRootHist = none) (as ab : ℚ) :
    (efficiencyCore c as ab true).1 = .error .attributeError := by
  simp [efficiencyCore, effUpdate_sigRootHist, effUpdate_bkgRootHist, hs, hb]

/-- The EffCore value of a default-normalized call, used to name the record
in proofs. -/
def effCoreOf (c : Curve) (at_sig at_bkg : ℚ) (nfs nfb : ℚ) : EffCore :=
  { eff := interpEval ((effUpdate c).interpolation.getD ⟨[], []⟩) at_sig
    eff2 := interpEval ⟨c.bkgPoints, c.sigPoints⟩ at_bkg
    normfactorsig := nfs
    normfactorbkg := nfb
    inv := ⟨c.bkgPoints, c.sigPoints⟩ }

/-- C8: the forward interpolant is built at most once per instance — at
construction when the interpolate flag is set, otherwise on the first
efficiency call whose state update is idempotent and leaves an already
populated cache untouched — while the inverse interpolant is built from the
current point arrays on every call and is never stored on the instance
(the Curve state has no field for it). -/
theorem c8_interpolant_cache :
    (∀ (s b : SrcInput) (pa : Axis) (xr yr : ℕ × ℕ) (bins : List ℚ)
        (c : Curve), roc_init s b pa true xr yr bins = .ok c →
        c.interpolation = some ⟨c.sigPoints, c.bkgPoints⟩) ∧
    (∀ (s b : SrcInput) (pa : Axis) (xr yr : ℕ × ℕ) (bins : List ℚ)
        (c : Curve), roc_init s b pa false xr yr bins = .ok c →
        c.interpolation = none) ∧
    (∀ (c : Curve) (as ab : ℚ) (nbe : Bool), c.interpolation = none →
        (efficiencyCore c as ab nbe).2
          = { c with interpolation := some ⟨c.sigPoints, c.bkgPoints⟩ }) ∧
    (∀ (c : Curve) (as ab : ℚ) (nbe : Bool) (f : Interp1d),
        c.interpolation = some f → (efficiencyCore c as ab nbe).2 = c) ∧
    (∀ (c : Curve) (as ab as2 ab2 : ℚ) (nbe nbe2 : Bool),
        (efficiencyCore (efficiencyCore c as ab nbe).2 as2 ab2 nbe2).2
          = (efficiencyCore c as ab nbe).2) ∧
    (∀ (c : Curve) (as ab : ℚ) (nbe : Bool) (core : EffCore) (c2 : Curve),
        efficiencyCore c as ab nbe = (.ok core, c2) →
        core.inv = ⟨c.bkgPoints, c.sigPoints⟩) := by
  refine ⟨?_, ?_, ?_, ?_, ?_, ?_⟩
  · intro s b pa xr yr bins c h
    obtain ⟨n, fs, fb, si, bi, srh, brh, hs⟩ := roc_init_ok_exists h
    have hi := (sweepCore_ok hs).2.2.2.2.2.2.2.2.2.1
    simpa using hi
  · intro s b pa xr yr bins c h
    obtain ⟨n, fs, fb, si, bi, srh, brh, hs⟩ := roc_init_ok_exists h
    have hi := (sweepCore_ok hs).2.2.2.2.2.2.2.2.2.1
    simpa using hi
  · intro c as ab nbe h
    rw [efficiencyCore_state, effUpdate, if_neg (by simp [h])]
  · intro c as ab nbe f h
    rw [efficiencyCore_state, effUpdate, if_pos (by simp [h])]
  · intro c as ab as2 ab2 nbe nbe2
    rw [efficiencyCore_state, efficiencyCore_state, effUpdate_idem]
  · intro c as ab nbe core c2 h
    cases nbe with
    | false =>
      rw [efficiencyCore_false_ok] at h
      obtain ⟨hfst, -⟩ := Prod.mk.injEq .. |>.mp h
      injection hfst with hcore
      subst hcore
      rfl
    | true =>
      rcases hs : c.sigRootHist with _ | sh
      · have hx := efficiencyCore_no_root hs as ab
        rw [h] at hx
        exact absurd hx (by simp)
      · rcases hb : c.bkgRootHist with _ | bh
        · have hx := efficiencyCore_no_root_bkg hs hb as ab
          rw [h] at hx
          exact absurd hx (by simp)
        · rw [efficiencyCore_true_ok hs hb] at h
          obtain ⟨hfst, -⟩ := Prod.mk.injEq .. |>.mp h
          injection hfst with hcore
          subst hcore
          rfl

/-- C8 witness: the six parts of `c8_interpolant_cache` instantiated on the
TH1 pair with contents `[1, 1]` and the curves it produces. -/
theorem c8_interpolant_cache_witness :
    (roc_init (.root (.th1 [1, 1] 2)) (.root (.th1 [1, 1] 2)) .x true (1, 1)
        (1, 1) [] = .ok curveRoot2i ∧
      curveRoot2i.interpolation
        = some ⟨curveRoot2i.sigPoints, curveRoot2i.bkgPoints⟩) ∧
    (roc_init (.root (.th1 [1, 1] 2)) (.root (.th1 [1, 1] 2)) .x false (1, 1)
        (1, 1) [] = .ok curveRoot2 ∧ curveRoot2.interpolation = none) ∧
    (curveRoot2.interpolation = none ∧
      (efficiencyCore curveRoot2 (3/4) (3/4) false).2
        = { curveRoot2 with
              interpolation := some ⟨curveRoot2.sigPoints, curveRoot2.bkgPoints⟩ }) ∧
    (curveRoot2i.interpolation = some ⟨[1/2, 1], [1/2, 1]⟩ ∧
      (efficiencyCore curveRoot2i (3/4) (3/4) false).2 = curveRoot2i) ∧
    ((efficiencyCore (efficiencyCore curveRoot2 (3/4) (3/4) false).2 (1/2)
        (1/2) true).2 = (efficiencyCore curveRoot2 (3/4) (3/4) false).2) ∧
    (efficiencyCore curveRoot2 (3/4) (3/4) false
        = (.ok (effCoreOf curveRoot2 (3/4) (3/4) 2 2), curveRoot2i) ∧
      (effCoreOf curveRoot2 (3/4) (3/4) 2 2).inv
        = ⟨curveRoot2.bkgPoints, curveRoot2.sigPoints⟩) := by
  have h1 : roc_init (.root (.th1 [1, 1] 2)) (.root (.th1 [1, 1] 2)) .x true
      (1, 1) (1, 1) [] = .ok curveRoot2i := by with_unfolding_all decide
  have h2 : roc_init (.root (.th1 [1, 1] 2)) (.root (.th1 [1, 1] 2)) .x false
      (1, 1) (1, 1) [] = .ok curveRoot2 := by with_unfolding_all decide
  have h3 : curveRoot2.interpolation = none := rfl
  have h4 : curveRoot2i.interpolation = some ⟨[1/2, 1], [1/2, 1]⟩ := rfl
  have h6 : efficiencyCore curveRoot2 (3/4) (3/4) false
      = (.ok (effCoreOf curveRoot2 (3/4) (3/4) 2 2), curveRoot2i) := by
    with_unfolding_all decide
  exact ⟨⟨h1, c8_interpolant_cache.1 _ _ _ _ _ _ _ h1⟩,
    ⟨h2, c8_interpolant_cache.2.1 _ _ _ _ _ _ _ h2⟩,
    ⟨h3, c8_interpolant_cache.2.2.1 _ _ _ _ h3⟩,
    ⟨h4, c8_interpolant_cache.2.2.2.1 _ _ _ _ _ h4⟩,
    c8_interpolant_cache.2.2.2.2.1 _ _ _ _ _ _ _,
    ⟨h6, c8_interpolant_cache.2.2.2.2.2 _ _ _ _ _ _ h6⟩⟩

/-- The structural relation between the two sweep orders: the numpy loop
divides suffix sums starting above bin i+1, the ROOT loop divides top-down
range integrals; over the same counts the former is the reverse of the
latter with its leading full-range point removed and a trailing 0 added. -/
theorem np_root_points_rel {H : List ℚ} (hne : H ≠ []) (T : ℚ) :
    (List.range H.length).map (fun i => (H.drop (i + 1)).sum / T) =
      ((List.range H.length).map
        (fun i => sliceSum H (H.length - i) H.length / T)).reverse.tail ++ [0] := by
  have hn0 : H.length ≠ 0 := fun h0 => hne (List.length_eq_zero.mp h0)
  apply List.ext_getElem?
  intro i
  set n := H.length with hn
  have htail : ((List.range n).map
      (fun i => sliceSum H (n - i) n / T)).reverse.tail
      = ((List.range n).map (fun i => sliceSum H (n - i) n / T)).reverse.drop 1 :=
    (List.drop_one _).symm
  rw [htail, List.getElem?_append]
  have hdlen : (((List.range n).map
      (fun i => sliceSum H (n - i) n / T)).reverse.drop 1).length = n - 1 := by
    simp
  rw [hdlen]
  by_cases hi : i < n - 1
  · rw [if_pos hi, List.getElem?_drop,
      List.getElem?_reverse (by simp; omega)]
    simp only [List.length_map, List.length_range]
    rw [List.getElem?_map, List.getElem?_map, List.getElem?_range (by omega),
      List.getElem?_range (by omega)]
    simp only [Option.map_some']
    congr 1
    have hidx : n - (n - 1 - (1 + i)) = i + 2 := by omega
    rw [hidx, sliceSum, if_neg (by omega)]
    have hdrop : (i + 2 : ℕ) - 1 = i + 1 := by omega
    rw [hdrop]
    have htake : (H.drop (i + 1)).take (n - (i + 2) + 1) = H.drop (i + 1) := by
      apply List.take_of_length_le
      rw [List.length_drop]
      omega
    rw [htake]
  · rw [if_neg hi]
    by_cases hin : i < n
    · have hieq : i = n - 1 := by omega
      subst hieq
      rw [List.getElem?_map, List.getElem?_range (by omega)]
      simp only [Option.map_some', Nat.sub_self]
      have hdrop : H.drop (n - 1 + 1) = [] := by
        apply List.drop_eq_nil_of_le
        omega
      rw [hdrop]
      simp
    · have hL : (((List.range n).map
          (fun i => (H.drop (i + 1)).sum / T))).length ≤ i := by
        simp
        omega
      have hR : ([(0 : ℚ)]).length ≤ i - (n - 1) := by
        simp
        omega
      rw [List.getElem?_eq_none hL, List.getElem?_eq_none hR]

/-- C3 (amended): the two construction paths are not equivalent; over the
same binned counts the sample-variant point sequences equal the
histogram-variant sequences reversed, with the leading 1.0 removed and a
trailing 0.0 appended. -/
theorem c3_variant_relation :
    ∀ (ss bs bins : List ℚ) (es eb : ℚ) (pa : Axis) (itp : Bool)
      (xr yr : ℕ × ℕ) (c1 c2 : Curve),
      roc_init (.nparr ss) (.nparr bs) pa itp xr yr bins = .ok c1 →
      roc_init (.root (.th1 (npHistogram ss bins) es))
        (.root (.th1 (npHistogram bs bins) eb)) pa itp xr yr bins = .ok c2 →
      c1.sigPoints = c2.sigPoints.reverse.tail ++ [0] ∧
      c1.bkgPoints = c2.bkgPoints.reverse.tail ++ [0] := by
  intro ss bs bins es eb pa itp xr yr c1 c2 h1 h2
  simp only [roc_init, npBranch] at h1
  rw [roc_init, rootBranch_th1_th1, rootDim1] at h2
  split at h2
  · exact Except.noConfusion h2
  · obtain ⟨hn1, hsi1, hbi1, hsp1, hbp1, -⟩ := sweepCore_ok h1
    obtain ⟨hn2, hsi2, hbi2, hsp2, hbp2, -⟩ := sweepCore_ok h2
    simp only [RootHist.nbinsX, RootHist.integral2, sliceSum_full]
      at hsp2 hbp2
    have hlen : (npHistogram ss bins).length = (npHistogram bs bins).length := by
      rw [npHistogram_length, npHistogram_length]
    have hne1 : npHistogram ss bins ≠ [] := by
      intro h0
      exact hn1 (by rw [h0]; rfl)
    have hne2 : npHistogram bs bins ≠ [] := by
      intro h0
      rw [hlen, h0] at hn1
      exact hn1 rfl
    constructor
    · rw [hsp1, hsp2]
      exact np_root_points_rel hne1 _
    · rw [hbp1, hbp2, hlen]
      exact np_root_points_rel hne2 _

/-- C3 witness: `c3_variant_relation` at the samples `[1/4, 3/4]` with edges
`[0, 1/2, 1]` (binned counts `[1, 1]`). -/
theorem c3_variant_relation_witness :
    roc_init (.nparr [1/4, 3/4]) (.nparr [1/4, 3/4]) .x false (1, 1) (1, 1)
      [0, 1/2, 1] = .ok curveNp2 ∧
    roc_init (.root (.th1 (npHistogram [1/4, 3/4] [0, 1/2, 1]) 2))
      (.root (.th1 (npHistogram [1/4, 3/4] [0, 1/2, 1]) 2)) .x false (1, 1)
      (1, 1) [0, 1/2, 1] = .ok curveRoot2 ∧
    curveNp2.sigPoints = curveRoot2.sigPoints.reverse.tail ++ [0] ∧
    curveNp2.bkgPoints = curveRoot2.bkgPoints.reverse.tail ++ [0] := by
  have h1 : roc_init (.nparr [1/4, 3/4]) (.nparr [1/4, 3/4]) .x false (1, 1)
      (1, 1) [0, 1/2, 1] = .ok curveNp2 := by with_unfolding_all decide
  have h2 : roc_init (.root (.th1 (npHistogram [1/4, 3/4] [0, 1/2, 1]) 2))
      (.root (.th1 (npHistogram [1/4, 3/4] [0, 1/2, 1]) 2)) .x false (1, 1)
      (1, 1) [0, 1/2, 1] = .ok curveRoot2 := by with_unfolding_all decide
  exact ⟨h1, h2, c3_variant_relation _ _ _ _ _ _ _ _ _ _ _ h1 h2⟩

/-- The invariants C9 claims of a constructed curve: equal-length point
sequences with every element in [0, 1], and min/max caches that are members
of, and bounds for, their sequences. -/
def curveInv (c : Curve) : Prop :=
  c.sigPoints.length = c.bkgPoints.length ∧
  (∀ p ∈ c.sigPoints, 0 ≤ p ∧ p ≤ 1) ∧
  (∀ p ∈ c.bkgPoints, 0 ≤ p ∧ p ≤ 1) ∧
  (c.bmax ∈ c.bkgPoints ∧ ∀ p ∈ c.bkgPoints, p ≤ c.bmax) ∧
  (c.bmin ∈ c.bkgPoints ∧ ∀ p ∈ c.bkgPoints, c.bmin ≤ p) ∧
  (c.smax ∈ c.sigPoints ∧ ∀ p ∈ c.sigPoints, p ≤ c.smax) ∧
  (c.smin ∈ c.sigPoints ∧ ∀ p ∈ c.sigPoints, c.smin ≤ p)

theorem points_bounds {n : ℕ} {f : ℕ → ℚ} {si : ℚ} (hsi : 0 < si)
    (hf : ∀ i, i < n → 0 ≤ f i ∧ f i ≤ si) :
    ∀ p ∈ (List.range n).map (fun i => f i / si), 0 ≤ p ∧ p ≤ 1 := by
  intro p hp
  rcases List.mem_map.mp hp with ⟨i, hi, rfl⟩
  have hi' := List.mem_range.mp hi
  obtain ⟨h0, h1⟩ := hf i hi'
  exact ⟨div_nonneg h0 hsi.le, (div_le_one hsi).mpr h1⟩

theorem sweepCore_curveInv {n : ℕ} {fs fb : ℕ → ℚ} {si bi : ℚ}
    {srh brh : Option RootHist} {itp : Bool} {c : Curve}
    (h : sweepCore n fs fb si bi srh brh itp = .ok c)
    (hsnn : 0 ≤ si) (hbnn : 0 ≤ bi)
    (hfs : ∀ i, i < n → 0 ≤ fs i ∧ fs i ≤ si)
    (hfb : ∀ i, i < n → 0 ≤ fb i ∧ fb i ≤ bi) : curveInv c := by
  obtain ⟨hn, hsi, hbi, hsp, hbp, -, -, -, -, -, hbmax, hbmin, hsmax, hsmin⟩ :=
    sweepCore_ok h
  have hspos : 0 < si := lt_of_le_of_ne hsnn (Ne.symm hsi)
  have hbpos : 0 < bi := lt_of_le_of_ne hbnn (Ne.symm hbi)
  have hsne : c.sigPoints ≠ [] := by
    rw [hsp]
    simp [List.range_eq_nil, hn]
  have hbne : c.bkgPoints ≠ [] := by
    rw [hbp]
    simp [List.range_eq_nil, hn]
  refine ⟨?_, ?_, ?_, ?_, ?_, ?_, ?_⟩
  · rw [hsp, hbp]
    simp
  · rw [hsp]
    exact points_bounds hspos hfs
  · rw [hbp]
    exact points_bounds hbpos hfb
  · rw [hbmax]
    exact ⟨listMax_mem hbne, fun p hp => le_listMax p hp⟩
  · rw [hbmin]
    exact ⟨listMin_mem hbne, fun p hp => listMin_le p hp⟩
  · rw [hsmax]
    exact ⟨listMax_mem hsne, fun p hp => le_listMax p hp⟩
  · rw [hsmin]
    exact ⟨listMin_mem hsne, fun p hp => listMin_le p hp⟩

theorem integral2_nonneg {hh : RootHist} (h : histNonneg hh) (a b : ℕ) :
    0 ≤ hh.integral2 a b := by
  cases hh with
  | th1 c e => exact sliceSum_nonneg h a b
  | th2 c e => exact le_refl 0
  | th3 c e => exact le_refl 0

theorem integral2_le_left_one {hh : RootHist} (h : histNonneg hh) {a : ℕ}
    (ha : 1 ≤ a) (b : ℕ) : hh.integral2 a b ≤ hh.integral2 1 b := by
  cases hh with
  | th1 c e => exact sliceSum_le_left_one h ha b
  | th2 c e => exact le_refl 0
  | th3 c e => exact le_refl 0

theorem rootDim2_curveInv {cs cb : List (List ℚ)} {es eb : ℚ} {pa : Axis}
    {xr yr : ℕ × ℕ} {itp : Bool} {c : Curve}
    (hs : ∀ r ∈ cs, ∀ q ∈ r, 0 ≤ q) (hb : ∀ r ∈ cb, ∀ q ∈ r, 0 ≤ q)
    (h : rootDim2 (.th2 cs es) (.th2 cb eb) pa xr yr itp = .ok c) :
    curveInv c := by
  have hmS : ∀ (a b : ℕ), ∀ q ∈ cs.map (fun r => sliceSum r a b), 0 ≤ q := by
    intro a b q hq
    rcases List.mem_map.mp hq with ⟨r, hr, rfl⟩
    exact sliceSum_nonneg (hs r hr) a b
  have hmB : ∀ (a b : ℕ), ∀ q ∈ cb.map (fun r => sliceSum r a b), 0 ≤ q := by
    intro a b q hq
    rcases List.mem_map.mp hq with ⟨r, hr, rfl⟩
    exact sliceSum_nonneg (hb r hr) a b
  rw [rootDim2] at h
  split at h
  · exact Except.noConfusion h
  next hbq =>
    push_neg at hbq
    split at h
    · refine sweepCore_curveInv h ?_ ?_ ?_ ?_
      · exact sliceSum_nonneg (hmS 1 _) xr.1 xr.2
      · exact sliceSum_nonneg (hmB 1 _) xr.1 xr.2
      · intro i hi
        refine ⟨sliceSum_nonneg (hmS _ _) xr.1 xr.2, ?_⟩
        exact sliceSum_map_mono
          (fun r hr => sliceSum_le_left_one (hs r hr) (by omega) _) xr.1 xr.2
      · intro i hi
        have hyeq := hbq.2
        refine ⟨sliceSum_nonneg (hmB _ _) xr.1 xr.2, ?_⟩
        exact sliceSum_map_mono
          (fun r hr => sliceSum_le_left_one (hb r hr) (by omega) _) xr.1 xr.2
    · refine sweepCore_curveInv h ?_ ?_ ?_ ?_
      · exact sliceSum_nonneg (hmS _ _) 1 _
      · exact sliceSum_nonneg (hmB _ _) 1 _
      · intro i hi
        exact ⟨sliceSum_nonneg (hmS _ _) _ _,
          sliceSum_le_left_one (hmS _ _) (by omega) _⟩
      · intro i hi
        have hxeq := hbq.1
        exact ⟨sliceSum_nonneg (hmB _ _) _ _,
          sliceSum_le_left_one (hmB _ _) (by omega) _⟩

/-- C9: on every successfully constructed curve whose sources have
nonnegative bin contents, the two point sequences have equal length, every
element lies in [0, 1], and the cached `bmax`/`bmin`/`smax`/`smin` are the
maxima/minima of the respective sequences (sample-variant counts are
nonnegative automatically). -/
theorem c9_curve_invariants :
    (∀ (sh bh : RootHist) (pa : Axis) (itp : Bool) (xr yr : ℕ × ℕ)
        (bins : List ℚ) (c : Curve), histNonneg sh → histNonneg bh →
        roc_init (.root sh) (.root bh) pa itp xr yr bins = .ok c →
        curveInv c) ∧
    (∀ (ss bs : List ℚ) (pa : Axis) (itp : Bool) (xr yr : ℕ × ℕ)
        (bins : List ℚ) (c : Curve),
        roc_init (.nparr ss) (.nparr bs) pa itp xr yr bins = .ok c →
        curveInv c) := by
  constructor
  · intro sh bh pa itp xr yr bins c hs hb h
    rw [roc_init, rootBranch] at h
    split at h
    · rw [rootDim3] at h
      split at h <;> exact Except.noConfusion h
    · split at h
      next hT2 =>
        rcases sh with ⟨cs, es⟩ | ⟨cs, es⟩ | ⟨cs, es⟩ <;>
          rcases bh with ⟨cb, eb⟩ | ⟨cb, eb⟩ | ⟨cb, eb⟩ <;>
            simp [RootHist.isTH2] at hT2
        exact rootDim2_curveInv hs hb h
      next hT2 =>
        rw [rootDim1] at h
        split at h
        · exact Except.noConfusion h
        next hbq =>
          have hx : sh.nbinsX = bh.nbinsX := not_ne_iff.mp hbq
          refine sweepCore_curveInv h ?_ ?_ ?_ ?_
          · exact integral2_nonneg hs 1 sh.nbinsX
          · exact integral2_nonneg hb 1 bh.nbinsX
          · intro i hi
            exact ⟨integral2_nonneg hs _ _,
              integral2_le_left_one hs (by omega) _⟩
          · intro i hi
            exact ⟨integral2_nonneg hb _ _,
              integral2_le_left_one hb (by omega) _⟩
  · intro ss bs pa itp xr yr bins c h
    simp only [roc_init, npBranch] at h
    refine sweepCore_curveInv h ?_ ?_ ?_ ?_
    · exact List.sum_nonneg (npHistogram_nonneg ss bins)
    · exact List.sum_nonneg (npHistogram_nonneg bs bins)
    · intro i hi
      exact ⟨sum_drop_nonneg _ _ (npHistogram_nonneg ss bins),
        sum_drop_le_sum _ _ (npHistogram_nonneg ss bins)⟩
    · intro i hi
      exact ⟨sum_drop_nonneg _ _ (npHistogram_nonneg bs bins),
        sum_drop_le_sum _ _ (npHistogram_nonneg bs bins)⟩

/-- C9 witness: both parts of `c9_curve_invariants` at the TH1 pair with
contents `[1, 1]` and at the samples `[1/4, 3/4]` with edges `[0, 1/2, 1]`. -/
theorem c9_curve_invariants_witness :
    (histNonneg (.th1 [1, 1] 2) ∧
      roc_init (.root (.th1 [1, 1] 2)) (.root (.th1 [1, 1] 2)) .x false (1, 1)
        (1, 1) [] = .ok curveRoot2 ∧ curveInv curveRoot2) ∧
    (roc_init (.nparr [1/4, 3/4]) (.nparr [1/4, 3/4]) .x false (1, 1) (1, 1)
      [0, 1/2, 1] = .ok curveNp2 ∧ curveInv curveNp2) := by
  have hnn : histNonneg (.th1 [1, 1] 2) := by
    intro q hq
    simp at hq
    rw [hq]
    norm_num
  have h1 : roc_init (.root (.th1 [1, 1] 2)) (.root (.th1 [1, 1] 2)) .x false
      (1, 1) (1, 1) [] = .ok curveRoot2 := by with_unfolding_all decide
  have h2 : roc_init (.nparr [1/4, 3/4]) (.nparr [1/4, 3/4]) .x false (1, 1)
      (1, 1) [0, 1/2, 1] = .ok curveNp2 := by with_unfolding_all decide
  exact ⟨⟨hnn, h1, c9_curve_invariants.1 _ _ _ _ _ _ _ _ hnn hnn h1⟩,
    ⟨h2, c9_curve_invariants.2 _ _ _ _ _ _ _ _ h2⟩⟩

theorem efficiencyErr_closed (e : EffCore) (h0 : 0 ≤ e.eff) (h1 : e.eff ≤ 1)
    (h2 : 0 ≤ e.eff2) (h3 : e.eff2 ≤ 1) (hns : 0 < e.normfactorsig)
    (hnb : 0 < e.normfactorbkg) :
    efficiencyErr e
      = Real.sqrt ((e.eff : ℝ) * (1 - (e.eff : ℝ)) / (e.normfactorbkg : ℝ)
        + (e.eff2 : ℝ) * (1 - (e.eff2 : ℝ)) / (e.normfactorsig : ℝ)) := by
  have he0 : (0:ℝ) ≤ (e.eff : ℝ) := by exact_mod_cast h0
  have he1 : (e.eff : ℝ) ≤ 1 := by exact_mod_cast h1
  have hf0 : (0:ℝ) ≤ (e.eff2 : ℝ) := by exact_mod_cast h2
  have hf1 : (e.eff2 : ℝ) ≤ 1 := by exact_mod_cast h3
  have hnsr : (0:ℝ) < (e.normfactorsig : ℝ) := by exact_mod_cast hns
  have hnbr : (0:ℝ) < (e.normfactorbkg : ℝ) := by exact_mod_cast hnb
  have hx : (0:ℝ) ≤ (e.eff : ℝ) * (1 - (e.eff : ℝ)) / (e.normfactorbkg : ℝ) :=
    div_nonneg (mul_nonneg he0 (by linarith)) hnbr.le
  have hy : (0:ℝ) ≤ (e.eff2 : ℝ) * (1 - (e.eff2 : ℝ)) / (e.normfactorsig : ℝ) :=
    div_nonneg (mul_nonneg hf0 (by linarith)) hnsr.le
  simp only [efficiencyErr, combinedError, rocErr]
  rw [Real.mul_self_sqrt hx, Real.mul_self_sqrt hy]

/-- C6: the efficiency call reports the quadrature sum
`sqrt(err*err + err2*err2)` with `err = sqrt(eff(1-eff)/N_bkg)` and
`err2 = sqrt(eff2(1-eff2)/N_sig)`; the normalization factors are the
construction-time integrals by default and the histogram entry counts when
`norm_by_entries` is set; for efficiencies in [0, 1] and positive factors
the combined error collapses to `sqrt(eff(1-eff)/N_bkg + eff2(1-eff2)/N_sig)`,
and at `eff = eff2 = 1/2`, `N_sig = N_bkg = 100` it equals
`sqrt(2 * (0.25/100))`. -/
theorem c6_error_model :
    (∀ (c : Curve) (as ab : ℚ) (nbe : Bool) (core : EffCore) (c2 : Curve),
        efficiencyCore c as ab nbe = (.ok core, c2) →
        (efficiency c as ab nbe false).1 = .ok ⟨core.eff, efficiencyErr core⟩) ∧
    (∀ (c : Curve) (as ab : ℚ) (core : EffCore) (c2 : Curve),
        efficiencyCore c as ab false = (.ok core, c2) →
        core.normfactorsig = c.sigInteg ∧ core.normfactorbkg = c.bkgInteg) ∧
    (∀ (c : Curve) (as ab : ℚ) (sh bh : RootHist) (core : EffCore) (c2 : Curve),
        c.sigRootHist = some sh → c.bkgRootHist = some bh →
        efficiencyCore c as ab true = (.ok core, c2) →
        core.normfactorsig = sh.getEntries ∧
        core.normfactorbkg = bh.getEntries) ∧
    (∀ e : EffCore, 0 ≤ e.eff → e.eff ≤ 1 → 0 ≤ e.eff2 → e.eff2 ≤ 1 →
        0 < e.normfactorsig → 0 < e.normfactorbkg →
        efficiencyErr e
          = Real.sqrt ((e.eff : ℝ) * (1 - (e.eff : ℝ)) / (e.normfactorbkg : ℝ)
            + (e.eff2 : ℝ) * (1 - (e.eff2 : ℝ)) / (e.normfactorsig : ℝ))) ∧
    efficiencyErr ⟨1/2, 1/2, 100, 100, ⟨[], []⟩⟩
      = Real.sqrt (2 * (1/4 / 100)) := by
  refine ⟨?_, ?_, ?_, ?_, ?_⟩
  · intro c as ab nbe core c2 h
    rw [efficiency, h]
    rfl
  · intro c as ab core c2 h
    rw [efficiencyCore_false_ok] at h
    obtain ⟨hfst, -⟩ := Prod.mk.injEq .. |>.mp h
    injection hfst with hcore
    subst hcore
    exact ⟨rfl, rfl⟩
  · intro c as ab sh bh core c2 hsr hbr h
    rw [efficiencyCore_true_ok hsr hbr] at h
    obtain ⟨hfst, -⟩ := Prod.mk.injEq .. |>.mp h
    injection hfst with hcore
    subst hcore
    exact ⟨rfl, rfl⟩
  · exact efficiencyErr_closed
  · rw [efficiencyErr_closed _ (by with_unfolding_all decide)
      (by with_unfolding_all decide) (by with_unfolding_all decide)
      (by with_unfolding_all decide) (by with_unfolding_all decide)
      (by with_unfolding_all decide)]
    congr 1
    push_cast
    norm_num

/-- C6 witness: the parts of `c6_error_model` instantiated on the curve built
from the TH1 pair `[1, 1]`, queried at `at_sig = at_bkg = 3/4`, where both
interpolated efficiencies are 3/4 and both normalization factors are 2. -/
theorem c6_error_model_witness :
    (efficiencyCore curveRoot2 (3/4) (3/4) false
        = (.ok (effCoreOf curveRoot2 (3/4) (3/4) 2 2), curveRoot2i) ∧
      (efficiency curveRoot2 (3/4) (3/4) false false).1
        = .ok ⟨(effCoreOf curveRoot2 (3/4) (3/4) 2 2).eff,
            efficiencyErr (effCoreOf curveRoot2 (3/4) (3/4) 2 2)⟩) ∧
    ((effCoreOf curveRoot2 (3/4) (3/4) 2 2).normfactorsig
        = curveRoot2.sigInteg ∧
      (effCoreOf curveRoot2 (3/4) (3/4) 2 2).normfactorbkg
        = curveRoot2.bkgInteg) ∧
    (curveRoot2.sigRootHist = some (.th1 [1, 1] 2) ∧
      efficiencyCore curveRoot2 (3/4) (3/4) true
        = (.ok (effCoreOf curveRoot2 (3/4) (3/4) 2 2), curveRoot2i) ∧
      (effCoreOf curveRoot2 (3/4) (3/4) 2 2).normfactorsig
        = (RootHist.th1 [1, 1] 2).getEntries) ∧
    (0 ≤ (effCoreOf curveRoot2 (3/4) (3/4) 2 2).eff ∧
      (effCoreOf curveRoot2 (3/4) (3/4) 2 2).eff ≤ 1 ∧
      0 < (effCoreOf curveRoot2 (3/4) (3/4) 2 2).normfactorsig ∧
      efficiencyErr (effCoreOf curveRoot2 (3/4) (3/4) 2 2)
        = Real.sqrt
            (((effCoreOf curveRoot2 (3/4) (3/4) 2 2).eff : ℝ)
                * (1 - ((effCoreOf curveRoot2 (3/4) (3/4) 2 2).eff : ℝ))
                / ((effCoreOf curveRoot2 (3/4) (3/4) 2 2).normfactorbkg : ℝ)
              + ((effCoreOf curveRoot2 (3/4) (3/4) 2 2).eff2 : ℝ)
                * (1 - ((effCoreOf curveRoot2 (3/4) (3/4) 2 2).eff2 : ℝ))
                / ((effCoreOf curveRoot2 (3/4) (3/4) 2 2).normfactorsig : ℝ))) := by
  have h6 : efficiencyCore curveRoot2 (3/4) (3/4) false
      = (.ok (effCoreOf curveRoot2 (3/4) (3/4) 2 2), curveRoot2i) := by
    with_unfolding_all decide
  have h6e : efficiencyCore curveRoot2 (3/4) (3/4) true
      = (.ok (effCoreOf curveRoot2 (3/4) (3/4) 2 2), curveRoot2i) := by
    with_unfolding_all decide
  refine ⟨⟨h6, c6_error_model.1 _ _ _ _ _ _ h6⟩,
    c6_error_model.2.1 _ _ _ _ _ h6,
    ⟨rfl, h6e, (c6_error_model.2.2.1 _ _ _ _ _ _ _ rfl rfl h6e).1⟩,
    ⟨by with_unfolding_all decide, by with_unfolding_all decide,
      by with_unfolding_all decide,
      c6_error_model.2.2.2.1 _ (by with_unfolding_all decide)
        (by with_unfolding_all decide) (by with_unfolding_all decide)
        (by with_unfolding_all decide) (by with_unfolding_all decide)
        (by with_unfolding_all decide)⟩⟩

end Trtpy
